import Mathlib

/-!
Verification of the adstock transformation library (`Adstock.py`).

The three computational functions of the repository are embedded over the
real numbers: `geometric_adstock_decay`, `delayed_geometric_decay` and
`weibull_adstock_decay`.  Library calls made by the source (numpy's
`quantile` and `cumprod`, Python's `round`, scipy's `weibull_min.cdf/pdf`
and sklearn's `MinMaxScaler`) are embedded by their documented semantics.
The Weibull function can fail (an unbound local variable for an unknown
mode string), so it returns an `Option`.
-/

namespace Adstock

/-- Tail of the geometric adstock series: the successive values obtained by
repeatedly multiplying the running impact by the decay factor
(the loop body `impact *= decay_factor; adstock_values.append(impact)`). -/
def geomFrom (impact decay_factor : ℝ) : ℕ → List ℝ
  | 0 => []
  | n + 1 => impact * decay_factor :: geomFrom (impact * decay_factor) decay_factor n

/-- `geometric_adstock_decay` from `Adstock.py`: starts from `[impact]` and
appends `periods - 1` further values, each the previous one times
`decay_factor`. -/
def geometric_adstock_decay (impact decay_factor : ℝ) (periods : ℕ) : List ℝ :=
  impact :: geomFrom impact decay_factor (periods - 1)

/-- `delayed_geometric_decay` from `Adstock.py`: for each lag in
`0..L-1` the value is `impact * decay_factor ^ |lag - theta|` (both branches
of the source's `if` compute this same expression).  The natural-number
power matches Python's `**` on a non-negative integer exponent, including
`0.0 ** 0 = 1.0`. -/
def delayed_geometric_decay (impact decay_factor : ℝ) (theta : ℤ) (L : ℕ) : List ℝ :=
  (List.range L).map fun lag : ℕ => impact * decay_factor ^ (((lag : ℕ) : ℤ) - theta).natAbs

/-- The index sequence `np.arange(1, periods + 1)` of `Adstock.py`:
the reals `1, 2, ..., periods`. -/
def x_bin (periods : ℕ) : List ℝ :=
  (List.range periods).map fun i : ℕ => ((i : ℕ) : ℝ) + 1

/-- Value of a list at the floor of the virtual quantile index
`q * (n - 1)` used by numpy's linear quantile interpolation. -/
noncomputable def quantLow (l : List ℝ) (q : ℝ) : ℝ :=
  l.getD (⌊q * ((l.length : ℝ) - 1)⌋).toNat 0

/-- numpy's `np.quantile` with the default linear interpolation between
order statistics: the virtual index is `q * (n - 1)`; the result
interpolates linearly between the values at its floor and the next index. -/
noncomputable def quantileLin (l : List ℝ) (q : ℝ) : ℝ :=
  quantLow l q + (q * ((l.length : ℝ) - 1) - (⌊q * ((l.length : ℝ) - 1)⌋ : ℤ)) *
    (l.getD ((⌊q * ((l.length : ℝ) - 1)⌋).toNat + 1) (quantLow l q) - quantLow l q)

/-- Python's built-in `round` (round half to even, as applied to the
numpy float returned by `np.quantile`). -/
noncomputable def roundPy (x : ℝ) : ℤ :=
  if Int.fract x = 1 / 2 then (if Even ⌊x⌋ then ⌊x⌋ else ⌊x⌋ + 1) else round x

/-- The source's `transformed_scale = round(np.quantile(x_bin, scale))`. -/
noncomputable def transformed_scale (periods : ℕ) (scale : ℝ) : ℤ :=
  roundPy (quantileLin (x_bin periods) scale)

/-- scipy's `weibull_min.cdf(x, c, scale=lam)`:
`1 - exp(-(x/lam)^c)` for positive `x`, and `0` at or below the support's
lower end. -/
noncomputable def weibullCDF (c lam x : ℝ) : ℝ :=
  if x ≤ 0 then 0 else 1 - Real.exp (-(x / lam) ^ c)

/-- scipy's `weibull_min.pdf(x, c, scale=lam)`:
`(c/lam) * (x/lam)^(c-1) * exp(-(x/lam)^c)` for positive `x`. -/
noncomputable def weibullPDF (c lam x : ℝ) : ℝ :=
  if x ≤ 0 then 0 else c / lam * (x / lam) ^ (c - 1) * Real.exp (-(x / lam) ^ c)

/-- Running products with accumulator, the recursion behind `np.cumprod`. -/
def cumprodAux (acc : ℝ) : List ℝ → List ℝ
  | [] => []
  | a :: t => acc * a :: cumprodAux (acc * a) t

/-- numpy's `np.cumprod`. -/
def cumprod (l : List ℝ) : List ℝ := cumprodAux 1 l

/-- Minimum of a list, `0` on the empty list (never taken by the source,
which always passes at least one value). -/
def listMin : List ℝ → ℝ
  | [] => 0
  | a :: t => t.foldl min a

/-- Maximum of a list, `0` on the empty list. -/
def listMax : List ℝ → ℝ
  | [] => 0
  | a :: t => t.foldl max a

/-- sklearn's `MinMaxScaler().fit_transform` on a single feature with the
default `(0, 1)` range: `(x - min) / (max - min)`, where a zero data range
is replaced by `1` (sklearn's `_handle_zeros_in_scale`). -/
noncomputable def minmax_scale (l : List ℝ) : List ℝ :=
  l.map fun x =>
    (x - listMin l) / (if listMax l - listMin l = 0 then 1 else listMax l - listMin l)

/-- One code point of Python's `str.lower()` (ASCII range, which covers the
mode strings compared by the source). -/
def lowerCode (n : ℕ) : ℕ := if 65 ≤ n ∧ n ≤ 90 then n + 32 else n

/-- Python's `adstock_type.lower()`, as the list of lower-cased code
points of the string. -/
def strLower (s : String) : List ℕ := s.data.map fun c => lowerCode c.toNat

/-- The weight vector `theta_vec_cum` of `weibull_adstock_decay` before the
normalisation/impact step: all zeros when `shape` or `scale` is `0`;
in CDF mode the cumulative product of `1` followed by the survival
function at `x_bin[:-1]`; in PDF mode the density at `x_bin` divided by its
sum.  For any other mode string the variable is never assigned (the source
raises `UnboundLocalError`), modelled as `none`. -/
noncomputable def weibull_weights (shape scale : ℝ) (periods : ℕ)
    (adstock_type : String) : Option (List ℝ) :=
  if shape = 0 ∨ scale = 0 then some (List.replicate periods 0)
  else if strLower adstock_type = strLower "cdf" then
    some (cumprod (1 :: (x_bin periods).dropLast.map fun x =>
      1 - weibullCDF shape ((transformed_scale periods scale : ℤ) : ℝ) x))
  else if strLower adstock_type = strLower "pdf" then
    some (((x_bin periods).map
        (weibullPDF shape ((transformed_scale periods scale : ℤ) : ℝ))).map
      fun v => v / ((x_bin periods).map
        (weibullPDF shape ((transformed_scale periods scale : ℤ) : ℝ))).sum)
  else none

/-- `weibull_adstock_decay` from `Adstock.py`: the weight vector, min-max
scaled when `normalised` is true, then multiplied elementwise by
`impact`. -/
noncomputable def weibull_adstock_decay (impact shape scale : ℝ) (periods : ℕ)
    (adstock_type : String) (normalised : Bool) : Option (List ℝ) :=
  Option.map
    (fun w =>
      if normalised then (minmax_scale w).map fun x => x * impact
      else w.map fun x => x * impact)
    (weibull_weights shape scale periods adstock_type)

theorem geomFrom_zero (a d : ℝ) : geomFrom a d 0 = [] := rfl

theorem geomFrom_succ (a d : ℝ) (n : ℕ) :
    geomFrom a d (n + 1) = a * d :: geomFrom (a * d) d n := rfl

theorem geomFrom_length (a d : ℝ) : ∀ n : ℕ, (geomFrom a d n).length = n := by
  intro n
  induction n generalizing a with
  | zero => rfl
  | succ n ih => simpa [geomFrom_succ] using ih (a * d)

theorem geomFrom_getD (d : ℝ) :
    ∀ (n : ℕ) (a : ℝ) (i : ℕ), i < n → (geomFrom a d n).getD i 0 = a * d ^ (i + 1) := by
  intro n
  induction n with
  | zero => intro a i hi; omega
  | succ n ih =>
    intro a i hi
    cases i with
    | zero => simp [geomFrom_succ]
    | succ i =>
      have hi' : i < n := by omega
      calc (geomFrom a d (n + 1)).getD (i + 1) 0
          = (geomFrom (a * d) d n).getD i 0 := by simp [geomFrom_succ]
        _ = a * d * d ^ (i + 1) := ih (a * d) i hi'
        _ = a * d ^ (i + 1 + 1) := by ring

theorem geometric_length (impact d : ℝ) (periods : ℕ) (hp : 1 ≤ periods) :
    (geometric_adstock_decay impact d periods).length = periods := by
  simp [geometric_adstock_decay, geomFrom_length]
  omega

theorem geometric_getD (impact d : ℝ) (periods : ℕ) :
    ∀ i, i < periods → (geometric_adstock_decay impact d periods).getD i 0 = impact * d ^ i := by
  intro i hi
  cases i with
  | zero => simp [geometric_adstock_decay]
  | succ i =>
    have hi' : i < periods - 1 := by omega
    calc (geometric_adstock_decay impact d periods).getD (i + 1) 0
        = (geomFrom impact d (periods - 1)).getD i 0 := by simp [geometric_adstock_decay]
      _ = impact * d ^ (i + 1) := geomFrom_getD d (periods - 1) impact i hi'

/-- Claim C7: `geometric_adstock_decay` returns a series of length exactly
`periods` satisfying the closed form `series[i] = impact * decayFactor ^ i`
for every index `i < periods`; in particular
`geometric_adstock_decay 100 0.3 5 = [100, 30, 9, 2.7, 0.81]`. -/
theorem geometric_closed_form (impact d : ℝ) (periods : ℕ) (hp : 1 ≤ periods) :
    (geometric_adstock_decay impact d periods).length = periods ∧
    (∀ i, i < periods →
      (geometric_adstock_decay impact d periods).getD i 0 = impact * d ^ i) ∧
    geometric_adstock_decay 100 (0.3 : ℝ) 5 = [100, 30, 9, 2.7, 0.81] := by
  refine ⟨geometric_length impact d periods hp, geometric_getD impact d periods, ?_⟩
  have h0 : geometric_adstock_decay 100 (0.3 : ℝ) 5 =
      100 :: geomFrom 100 (0.3 : ℝ) 4 := rfl
  rw [h0, show (4 : ℕ) = 3 + 1 from rfl, geomFrom_succ,
    show (3 : ℕ) = 2 + 1 from rfl, geomFrom_succ,
    show (2 : ℕ) = 1 + 1 from rfl, geomFrom_succ,
    show (1 : ℕ) = 0 + 1 from rfl, geomFrom_succ, geomFrom_zero]
  norm_num

/-- Claim C7 witness at a concrete input. -/
theorem geometric_closed_form_witness :
    (1 : ℕ) ≤ 5 ∧
    ((geometric_adstock_decay 100 (0.3 : ℝ) 5).length = 5 ∧
    (∀ i, i < 5 →
      (geometric_adstock_decay 100 (0.3 : ℝ) 5).getD i 0 = 100 * (0.3 : ℝ) ^ i) ∧
    geometric_adstock_decay 100 (0.3 : ℝ) 5 = [100, 30, 9, 2.7, 0.81]) :=
  ⟨by norm_num, geometric_closed_form 100 (0.3 : ℝ) 5 (by norm_num)⟩

/-- Claim C8: for `decayFactor ∈ [0,1]`, `impact ≥ 0` and `periods ≥ 1`, the
geometric adstock series is non-increasing in magnitude:
`|output[i+1]| ≤ |output[i]|` for all adjacent in-range indices. -/
theorem geometric_nonincreasing (impact d : ℝ) (periods : ℕ)
    (hd0 : 0 ≤ d) (hd1 : d ≤ 1) (him : 0 ≤ impact) (hp : 1 ≤ periods) :
    ∀ i, i + 1 < periods →
      |(geometric_adstock_decay impact d periods).getD (i + 1) 0| ≤
      |(geometric_adstock_decay impact d periods).getD i 0| := by
  intro i hi
  rw [geometric_getD impact d periods (i + 1) hi,
    geometric_getD impact d periods i (by omega)]
  have h1 : 0 ≤ impact * d ^ i := mul_nonneg him (pow_nonneg hd0 i)
  have h2 : 0 ≤ impact * d ^ (i + 1) := mul_nonneg him (pow_nonneg hd0 (i + 1))
  rw [abs_of_nonneg h1, abs_of_nonneg h2]
  exact mul_le_mul_of_nonneg_left (pow_le_pow_of_le_one hd0 hd1 (Nat.le_succ i)) him

/-- Claim C8 witness at a concrete input. -/
theorem geometric_nonincreasing_witness :
    ((0 : ℝ) ≤ 1/2 ∧ (1 : ℝ)/2 ≤ 1 ∧ (0 : ℝ) ≤ 7 ∧ (1 : ℕ) ≤ 3) ∧
    (∀ i, i + 1 < 3 →
      |(geometric_adstock_decay 7 (1/2 : ℝ) 3).getD (i + 1) 0| ≤
      |(geometric_adstock_decay 7 (1/2 : ℝ) 3).getD i 0|) :=
  ⟨by norm_num,
    geometric_nonincreasing 7 (1/2 : ℝ) 3 (by norm_num) (by norm_num) (by norm_num)
      (by norm_num)⟩

theorem delayed_length (impact d : ℝ) (theta : ℤ) (L : ℕ) :
    (delayed_geometric_decay impact d theta L).length = L := by
  rw [delayed_geometric_decay, List.length_map, List.length_range]

theorem delayed_getD (impact d : ℝ) (theta : ℤ) (L : ℕ) :
    ∀ i, i < L → (delayed_geometric_decay impact d theta L).getD i 0 =
      impact * d ^ ((i : ℤ) - theta).natAbs := by
  intro i hi
  have hlen : i < (delayed_geometric_decay impact d theta L).length := by
    rw [delayed_length]; exact hi
  rw [List.getD_eq_getElem _ _ hlen]
  simp only [delayed_geometric_decay, List.getElem_map, List.getElem_range]

/-- Claim C6: `delayed_geometric_decay` returns a series of length exactly
`maxLag` with `series[i] = impact * decayFactor ^ |i - peakPeriod|`; if
`0 ≤ peakPeriod < maxLag` then the value at the peak index is exactly
`impact` (also when the decay factor is `0`, by the convention `0 ^ 0 = 1`),
and with decay factor `0` every other in-range value is `0`. -/
theorem delayed_geometric_spec (impact d : ℝ) (theta : ℤ) (L : ℕ) (hL : 1 ≤ L) :
    (delayed_geometric_decay impact d theta L).length = L ∧
    (∀ i, i < L → (delayed_geometric_decay impact d theta L).getD i 0 =
      impact * d ^ ((i : ℤ) - theta).natAbs) ∧
    (0 ≤ theta → theta < (L : ℤ) →
      (delayed_geometric_decay impact d theta L).getD theta.toNat 0 = impact) ∧
    (0 ≤ theta → theta < (L : ℤ) →
      (delayed_geometric_decay impact 0 theta L).getD theta.toNat 0 = impact) ∧
    (∀ i, i < L → (i : ℤ) ≠ theta →
      (delayed_geometric_decay impact 0 theta L).getD i 0 = 0) := by
  have hpeak : ∀ d' : ℝ, 0 ≤ theta → theta < (L : ℤ) →
      (delayed_geometric_decay impact d' theta L).getD theta.toNat 0 = impact := by
    intro d' h0 hLθ
    have ht : theta.toNat < L := by omega
    rw [delayed_getD impact d' theta L theta.toNat ht]
    have hz : ((theta.toNat : ℤ) - theta).natAbs = 0 := by
      rw [Int.toNat_of_nonneg h0]; simp
    rw [hz, pow_zero, mul_one]
  refine ⟨delayed_length impact d theta L, delayed_getD impact d theta L,
    hpeak d, hpeak 0, ?_⟩
  intro i hi hne
  rw [delayed_getD impact 0 theta L i hi]
  have hnz : ((i : ℤ) - theta).natAbs ≠ 0 := by
    intro h
    exact hne (by omega)
  rw [zero_pow hnz, mul_zero]

/-- Claim C6 witness at a concrete input. -/
theorem delayed_geometric_spec_witness :
    (1 : ℕ) ≤ 3 ∧
    ((delayed_geometric_decay 4 (1/2 : ℝ) 1 3).length = 3 ∧
    (∀ i, i < 3 → (delayed_geometric_decay 4 (1/2 : ℝ) 1 3).getD i 0 =
      4 * (1/2 : ℝ) ^ ((i : ℤ) - 1).natAbs) ∧
    (0 ≤ (1 : ℤ) → (1 : ℤ) < (3 : ℕ) →
      (delayed_geometric_decay 4 (1/2 : ℝ) 1 3).getD (1 : ℤ).toNat 0 = 4) ∧
    (0 ≤ (1 : ℤ) → (1 : ℤ) < (3 : ℕ) →
      (delayed_geometric_decay 4 0 1 3).getD (1 : ℤ).toNat 0 = 4) ∧
    (∀ i : ℕ, i < 3 → (i : ℤ) ≠ 1 →
      (delayed_geometric_decay 4 0 1 3).getD i 0 = 0)) :=
  ⟨by norm_num, delayed_geometric_spec 4 (1/2 : ℝ) 1 3 (by norm_num)⟩

theorem x_bin_length (periods : ℕ) : (x_bin periods).length = periods := by
  rw [x_bin, List.length_map, List.length_range]

theorem x_bin_getD (periods : ℕ) (d : ℝ) :
    ∀ i, i < periods → (x_bin periods).getD i d = (i : ℝ) + 1 := by
  intro i hi
  have hlen : i < (x_bin periods).length := by rw [x_bin_length]; exact hi
  rw [List.getD_eq_getElem _ _ hlen]
  simp only [x_bin, List.getElem_map, List.getElem_range]

theorem mem_x_bin (periods : ℕ) (y : ℝ) (hy : y ∈ x_bin periods) : 1 ≤ y := by
  rw [x_bin] at hy
  obtain ⟨i, _, rfl⟩ := List.mem_map.mp hy
  have : (0 : ℝ) ≤ (i : ℝ) := Nat.cast_nonneg i
  linarith

/-- On the index range `[1..n]`, the linearly interpolated quantile at a
fraction `q ∈ [0,1]` is exactly `1 + q * (n - 1)`. -/
theorem quantileLin_x_bin (n : ℕ) (q : ℝ) (hn : 1 ≤ n) (h0 : 0 ≤ q) (h1 : q ≤ 1) :
    quantileLin (x_bin n) q = 1 + q * ((n : ℝ) - 1) := by
  have hlen : ((x_bin n).length : ℝ) = (n : ℝ) := by rw [x_bin_length]
  have hn1 : (0 : ℝ) ≤ (n : ℝ) - 1 := by
    have : (1 : ℝ) ≤ (n : ℝ) := by exact_mod_cast hn
    linarith
  set h : ℝ := q * ((n : ℝ) - 1) with hdef
  have hh0 : 0 ≤ h := mul_nonneg h0 hn1
  have hhle : h ≤ (n : ℝ) - 1 := by nlinarith
  have hfl0 : 0 ≤ ⌊h⌋ := Int.floor_nonneg.mpr hh0
  have hfl_le : ⌊h⌋ ≤ (n : ℤ) - 1 := by
    have h2 : ⌊h⌋ ≤ ⌊(n : ℝ) - 1⌋ := Int.floor_le_floor hhle
    have h3 : ⌊(n : ℝ) - 1⌋ = (n : ℤ) - 1 := by
      rw [show (n : ℝ) - 1 = (((n : ℤ) - 1 : ℤ) : ℝ) by push_cast; ring, Int.floor_intCast]
    omega
  have hcast : ((⌊h⌋.toNat : ℕ) : ℝ) = ((⌊h⌋ : ℤ) : ℝ) := by
    exact_mod_cast congrArg (fun z : ℤ => (z : ℝ)) (Int.toNat_of_nonneg hfl0)
  have hilt : ⌊h⌋.toNat < n := by omega
  have hlow : quantLow (x_bin n) q = ((⌊h⌋ : ℤ) : ℝ) + 1 := by
    rw [quantLow, hlen, ← hdef, x_bin_getD n 0 ⌊h⌋.toNat hilt, hcast]
  rw [quantileLin, hlow, hlen, ← hdef]
  rcases Nat.lt_or_ge (⌊h⌋.toNat + 1) n with hc | hc
  · rw [x_bin_getD n (((⌊h⌋ : ℤ) : ℝ) + 1) (⌊h⌋.toNat + 1) hc]
    have hsucc : ((⌊h⌋.toNat + 1 : ℕ) : ℝ) = ((⌊h⌋ : ℤ) : ℝ) + 1 := by
      rw [Nat.cast_add, Nat.cast_one, hcast]
    rw [hsucc]
    ring
  · have heq : ⌊h⌋ = (n : ℤ) - 1 := by omega
    have hfloor_le : ((⌊h⌋ : ℤ) : ℝ) ≤ h := Int.floor_le h
    have hhe : h = (n : ℝ) - 1 := by
      rw [heq] at hfloor_le; push_cast at hfloor_le; linarith
    have hgd : (x_bin n).getD (⌊h⌋.toNat + 1) (((⌊h⌋ : ℤ) : ℝ) + 1) =
        ((⌊h⌋ : ℤ) : ℝ) + 1 := by
      apply List.getD_eq_default
      rw [x_bin_length]; omega
    rw [hgd, heq, hhe]
    push_cast
    ring

/-- `roundPy` returns a nearest integer: it is within `1/2` of its input. -/
theorem roundPy_nearest (x : ℝ) : |((roundPy x : ℤ) : ℝ) - x| ≤ 1 / 2 := by
  rw [roundPy]
  split_ifs with h1 h2
  · have : ((⌊x⌋ : ℤ) : ℝ) - x = -(1 / 2) := by
      have := Int.self_sub_floor x
      rw [show x - ((⌊x⌋ : ℤ) : ℝ) = Int.fract x from this] at *
      linarith [h1, Int.self_sub_floor x]
    rw [this, abs_neg, abs_of_nonneg (by norm_num : (0 : ℝ) ≤ 1 / 2)]
  · have hfr : x - ((⌊x⌋ : ℤ) : ℝ) = 1 / 2 := by
      rw [Int.self_sub_floor x]; exact h1
    have : (((⌊x⌋ + 1 : ℤ) : ℤ) : ℝ) - x = 1 / 2 := by push_cast; linarith
    rw [this, abs_of_nonneg (by norm_num : (0 : ℝ) ≤ 1 / 2)]
  · rw [abs_sub_comm]; exact abs_sub_round x

theorem one_le_roundPy (x : ℝ) (hx : 1 ≤ x) : 1 ≤ roundPy x := by
  have h := roundPy_nearest x
  have h2 := abs_le.mp h
  have hpos : (0 : ℝ) < ((roundPy x : ℤ) : ℝ) := by linarith [h2.1]
  have : (0 : ℤ) < roundPy x := by exact_mod_cast hpos
  omega

theorem roundPy_intCast (k : ℤ) : roundPy ((k : ℤ) : ℝ) = k := by
  rw [roundPy, if_neg, round_intCast]
  rw [Int.fract_intCast]
  norm_num

theorem transformed_scale_eq (periods : ℕ) (scale : ℝ)
    (hp : 1 ≤ periods) (h0 : 0 ≤ scale) (h1 : scale ≤ 1) :
    transformed_scale periods scale = roundPy (1 + scale * ((periods : ℝ) - 1)) := by
  rw [transformed_scale, quantileLin_x_bin periods scale hp h0 h1]

theorem one_le_transformed_scale (periods : ℕ) (scale : ℝ)
    (hp : 1 ≤ periods) (h0 : 0 ≤ scale) (h1 : scale ≤ 1) :
    1 ≤ transformed_scale periods scale := by
  rw [transformed_scale_eq periods scale hp h0 h1]
  apply one_le_roundPy
  have : (1 : ℝ) ≤ (periods : ℝ) := by exact_mod_cast hp
  nlinarith

theorem getD_map_of_lt (f : ℝ → ℝ) (l : List ℝ) (i : ℕ) (h : i < l.length) (d : ℝ) :
    (l.map f).getD i d = f (l.getD i d) := by
  have h2 : i < (l.map f).length := by rw [List.length_map]; exact h
  rw [List.getD_eq_getElem _ _ h2, List.getD_eq_getElem _ _ h, List.getElem_map]

theorem cumprodAux_length (l : List ℝ) : ∀ acc, (cumprodAux acc l).length = l.length := by
  induction l with
  | nil => intro acc; rfl
  | cons a t ih => intro acc; simpa [cumprodAux] using ih (acc * a)

theorem cumprod_length (l : List ℝ) : (cumprod l).length = l.length :=
  cumprodAux_length l 1

/-- Running products of factors in `[0,1]` started from a non-negative
accumulator are non-negative, bounded by the accumulator, and
non-increasing at every adjacent pair of positions. -/
theorem cumprodAux_facts : ∀ l : List ℝ, (∀ a ∈ l, 0 ≤ a ∧ a ≤ 1) →
    ∀ acc : ℝ, 0 ≤ acc →
    (∀ i, 0 ≤ (cumprodAux acc l).getD i 0) ∧
    (cumprodAux acc l).getD 0 0 ≤ acc ∧
    (∀ i, (cumprodAux acc l).getD (i + 1) 0 ≤ (cumprodAux acc l).getD i 0) := by
  intro l
  induction l with
  | nil =>
    intro _ acc hacc
    refine ⟨fun i => by simp [cumprodAux], by simpa [cumprodAux] using hacc,
      fun i => by simp [cumprodAux]⟩
  | cons a t ih =>
    intro hmem acc hacc
    obtain ⟨ha0, ha1⟩ := hmem a (List.mem_cons_self a t)
    have hmem' : ∀ b ∈ t, 0 ≤ b ∧ b ≤ 1 := fun b hb => hmem b (List.mem_cons_of_mem a hb)
    have hacc' : 0 ≤ acc * a := mul_nonneg hacc ha0
    obtain ⟨ih0, ih1, ih2⟩ := ih hmem' (acc * a) hacc'
    refine ⟨?_, ?_, ?_⟩
    · intro i
      cases i with
      | zero => simpa [cumprodAux] using hacc'
      | succ i => simpa [cumprodAux] using ih0 i
    · simpa [cumprodAux] using mul_le_of_le_one_right hacc ha1
    · intro i
      cases i with
      | zero => simpa [cumprodAux] using ih1
      | succ i => simpa [cumprodAux] using ih2 i

theorem foldl_min_le (a : ℝ) : ∀ t : List ℝ, t.foldl min a ≤ a := by
  intro t
  induction t generalizing a with
  | nil => exact le_refl a
  | cons b t ih => exact le_trans (ih (min a b)) (min_le_left a b)

theorem le_foldl_max (a : ℝ) : ∀ t : List ℝ, a ≤ t.foldl max a := by
  intro t
  induction t generalizing a with
  | nil => exact le_refl a
  | cons b t ih => exact le_trans (le_max_left a b) (ih (max a b))

theorem listMin_le_listMax (l : List ℝ) : listMin l ≤ listMax l := by
  cases l with
  | nil => exact le_refl 0
  | cons a t => exact le_trans (foldl_min_le a t) (le_foldl_max a t)

theorem minmax_denom_pos (l : List ℝ) :
    0 < (if listMax l - listMin l = 0 then 1 else listMax l - listMin l) := by
  split_ifs with h
  · norm_num
  · have := listMin_le_listMax l
    have h2 : 0 ≤ listMax l - listMin l := by linarith
    exact lt_of_le_of_ne h2 (Ne.symm h)

theorem weibull_weights_deg (shape scale : ℝ) (periods : ℕ) (t : String)
    (h : shape = 0 ∨ scale = 0) :
    weibull_weights shape scale periods t = some (List.replicate periods 0) := by
  rw [weibull_weights, if_pos h]

theorem weibull_weights_cdf (shape scale : ℝ) (periods : ℕ)
    (h1 : shape ≠ 0) (h2 : scale ≠ 0) :
    weibull_weights shape scale periods "cdf" =
      some (cumprod (1 :: (x_bin periods).dropLast.map fun x =>
        1 - weibullCDF shape ((transformed_scale periods scale : ℤ) : ℝ) x)) := by
  rw [weibull_weights, if_neg (not_or.mpr ⟨h1, h2⟩), if_pos (by decide)]

theorem weibull_weights_pdf (shape scale : ℝ) (periods : ℕ)
    (h1 : shape ≠ 0) (h2 : scale ≠ 0) :
    weibull_weights shape scale periods "pdf" =
      some (((x_bin periods).map
          (weibullPDF shape ((transformed_scale periods scale : ℤ) : ℝ))).map
        fun v => v / ((x_bin periods).map
          (weibullPDF shape ((transformed_scale periods scale : ℤ) : ℝ))).sum) := by
  rw [weibull_weights, if_neg (not_or.mpr ⟨h1, h2⟩), if_neg (by decide), if_pos (by decide)]

theorem weibull_weights_none (shape scale : ℝ) (periods : ℕ) (t : String)
    (h1 : shape ≠ 0) (h2 : scale ≠ 0)
    (hc : strLower t ≠ strLower "cdf") (hp : strLower t ≠ strLower "pdf") :
    weibull_weights shape scale periods t = none := by
  rw [weibull_weights, if_neg (not_or.mpr ⟨h1, h2⟩), if_neg hc, if_neg hp]

theorem weibull_weights_congr_mode (shape scale : ℝ) (periods : ℕ) (t₁ t₂ : String)
    (h : strLower t₁ = strLower t₂) :
    weibull_weights shape scale periods t₁ = weibull_weights shape scale periods t₂ := by
  rw [weibull_weights, h, weibull_weights]

theorem weibull_adstock_of_weights (impact shape scale : ℝ) (periods : ℕ)
    (t : String) (w : List ℝ) (h : weibull_weights shape scale periods t = some w) :
    weibull_adstock_decay impact shape scale periods t true =
      some ((minmax_scale w).map fun x => x * impact) ∧
    weibull_adstock_decay impact shape scale periods t false =
      some (w.map fun x => x * impact) := by
  constructor <;> rw [weibull_adstock_decay, h, Option.map_some'] <;> simp

theorem weights_length (shape scale : ℝ) (periods : ℕ) (t : String) (w : List ℝ)
    (hp : 1 ≤ periods) (h : weibull_weights shape scale periods t = some w) :
    w.length = periods := by
  rw [weibull_weights] at h
  split_ifs at h with h1 h2 h3
  · cases h; exact List.length_replicate periods 0
  · cases h
    rw [cumprod_length, List.length_cons, List.length_map, List.length_dropLast,
      x_bin_length]
    omega
  · cases h
    rw [List.length_map, List.length_map, x_bin_length]

/-- Claim C1: for `periods ≥ 1` and `scale ∈ [0,1]`, the linearly
interpolated quantile of `[1..periods]` at `scale` is `1 + scale*(periods-1)`,
so `transformed_scale` is its rounding — a nearest integer to
`1 + scale*(periods-1)` — and it is this value that appears as the scale
argument of every Weibull CDF/PDF evaluation in the weight vector. -/
theorem transformed_scale_spec (periods : ℕ) (scale : ℝ)
    (hp : 1 ≤ periods) (h0 : 0 ≤ scale) (h1 : scale ≤ 1) :
    quantileLin (x_bin periods) scale = 1 + scale * ((periods : ℝ) - 1) ∧
    transformed_scale periods scale = roundPy (1 + scale * ((periods : ℝ) - 1)) ∧
    |((transformed_scale periods scale : ℤ) : ℝ) - (1 + scale * ((periods : ℝ) - 1))| ≤
      1 / 2 ∧
    ∀ shape : ℝ, shape ≠ 0 → scale ≠ 0 →
      weibull_weights shape scale periods "cdf" =
        some (cumprod (1 :: (x_bin periods).dropLast.map fun x =>
          1 - weibullCDF shape ((transformed_scale periods scale : ℤ) : ℝ) x)) ∧
      weibull_weights shape scale periods "pdf" =
        some (((x_bin periods).map
            (weibullPDF shape ((transformed_scale periods scale : ℤ) : ℝ))).map
          fun v => v / ((x_bin periods).map
            (weibullPDF shape ((transformed_scale periods scale : ℤ) : ℝ))).sum) := by
  refine ⟨quantileLin_x_bin periods scale hp h0 h1,
    transformed_scale_eq periods scale hp h0 h1, ?_, ?_⟩
  · rw [transformed_scale_eq periods scale hp h0 h1]
    exact roundPy_nearest (1 + scale * ((periods : ℝ) - 1))
  · intro shape hs hsc
    exact ⟨weibull_weights_cdf shape scale periods hs hsc,
      weibull_weights_pdf shape scale periods hs hsc⟩

/-- Claim C1 witness at a concrete input. -/
theorem transformed_scale_spec_witness :
    ((1 : ℕ) ≤ 3 ∧ (0 : ℝ) ≤ 1/2 ∧ (1 : ℝ)/2 ≤ 1) ∧
    (quantileLin (x_bin 3) (1/2) = 1 + 1/2 * ((3 : ℝ) - 1) ∧
    transformed_scale 3 (1/2) = roundPy (1 + 1/2 * ((3 : ℝ) - 1)) ∧
    |((transformed_scale 3 (1/2) : ℤ) : ℝ) - (1 + 1/2 * ((3 : ℝ) - 1))| ≤ 1 / 2 ∧
    ∀ shape : ℝ, shape ≠ 0 → (1 : ℝ)/2 ≠ 0 →
      weibull_weights shape (1/2) 3 "cdf" =
        some (cumprod (1 :: (x_bin 3).dropLast.map fun x =>
          1 - weibullCDF shape ((transformed_scale 3 (1/2) : ℤ) : ℝ) x)) ∧
      weibull_weights shape (1/2) 3 "pdf" =
        some (((x_bin 3).map
            (weibullPDF shape ((transformed_scale 3 (1/2) : ℤ) : ℝ))).map
          fun v => v / ((x_bin 3).map
            (weibullPDF shape ((transformed_scale 3 (1/2) : ℤ) : ℝ))).sum)) :=
  ⟨⟨by norm_num, by norm_num, by norm_num⟩,
    transformed_scale_spec 3 (1/2) (by norm_num) (by norm_num) (by norm_num)⟩

theorem foldl_min_replicate_zero : ∀ n : ℕ, (List.replicate n (0 : ℝ)).foldl min 0 = 0
  | 0 => rfl
  | n + 1 => by
    rw [List.replicate_succ, List.foldl_cons, min_self]
    exact foldl_min_replicate_zero n

theorem foldl_max_replicate_zero : ∀ n : ℕ, (List.replicate n (0 : ℝ)).foldl max 0 = 0
  | 0 => rfl
  | n + 1 => by
    rw [List.replicate_succ, List.foldl_cons, max_self]
    exact foldl_max_replicate_zero n

theorem listMin_replicate_zero (n : ℕ) : listMin (List.replicate n (0 : ℝ)) = 0 := by
  cases n with
  | zero => rfl
  | succ n => rw [List.replicate_succ, listMin]; exact foldl_min_replicate_zero n

theorem listMax_replicate_zero (n : ℕ) : listMax (List.replicate n (0 : ℝ)) = 0 := by
  cases n with
  | zero => rfl
  | succ n => rw [List.replicate_succ, listMax]; exact foldl_max_replicate_zero n

/-- Claim C4: if `shape = 0` or `scale = 0`, `weibull_adstock_decay` returns
the all-zero series of length `periods`, for any impact, mode string and
normalisation flag: neither min-max scaling nor the multiplication by
`impact` introduces a nonzero value. -/
theorem weibull_degenerate_zero (impact shape scale : ℝ) (periods : ℕ)
    (t : String) (normalised : Bool) (hp : 1 ≤ periods)
    (h : shape = 0 ∨ scale = 0) :
    weibull_adstock_decay impact shape scale periods t normalised =
      some (List.replicate periods 0) := by
  have hw := weibull_weights_deg shape scale periods t h
  have hmm : minmax_scale (List.replicate periods (0 : ℝ)) =
      List.replicate periods (0 : ℝ) := by
    rw [minmax_scale, listMin_replicate_zero, listMax_replicate_zero, List.map_replicate]
    norm_num
  rw [weibull_adstock_decay, hw, Option.map_some']
  cases normalised with
  | true =>
    rw [if_pos rfl, hmm, List.map_replicate, zero_mul]
  | false =>
    rw [if_neg (by simp), List.map_replicate, zero_mul]

/-- Claim C4 witness at a concrete input. -/
theorem weibull_degenerate_zero_witness :
    ((1 : ℕ) ≤ 3 ∧ ((0 : ℝ) = 0 ∨ (1 : ℝ)/2 = 0)) ∧
    weibull_adstock_decay 7 0 (1/2) 3 "cdf" true = some (List.replicate 3 0) :=
  ⟨⟨by norm_num, Or.inl rfl⟩,
    weibull_degenerate_zero 7 0 (1/2) 3 "cdf" true (by norm_num) (Or.inl rfl)⟩

/-- Claim C10: with nonzero shape and scale, a mode string whose lower-cased
form is neither "cdf" nor "pdf" makes `weibull_adstock_decay` fail (the
weight vector is never assigned), and the mode match is case-insensitive:
"CDF" and "cdf" (resp. "PDF" and "pdf") produce identical output. -/
theorem weibull_invalid_mode (impact shape scale : ℝ) (periods : ℕ)
    (normalised : Bool) (t : String)
    (h1 : shape ≠ 0) (h2 : scale ≠ 0)
    (hc : strLower t ≠ strLower "cdf") (hp : strLower t ≠ strLower "pdf") :
    weibull_adstock_decay impact shape scale periods t normalised = none ∧
    weibull_adstock_decay impact shape scale periods "CDF" normalised =
      weibull_adstock_decay impact shape scale periods "cdf" normalised ∧
    weibull_adstock_decay impact shape scale periods "PDF" normalised =
      weibull_adstock_decay impact shape scale periods "pdf" normalised := by
  refine ⟨?_, ?_, ?_⟩
  · rw [weibull_adstock_decay, weibull_weights_none shape scale periods t h1 h2 hc hp]
    rfl
  · rw [weibull_adstock_decay, weibull_adstock_decay,
      weibull_weights_congr_mode shape scale periods "CDF" "cdf" (by decide)]
  · rw [weibull_adstock_decay, weibull_adstock_decay,
      weibull_weights_congr_mode shape scale periods "PDF" "pdf" (by decide)]

/-- Claim C10 witness at a concrete input. -/
theorem weibull_invalid_mode_witness :
    ((1 : ℝ) ≠ 0 ∧ (1 : ℝ)/2 ≠ 0 ∧ strLower "xyz" ≠ strLower "cdf" ∧
      strLower "xyz" ≠ strLower "pdf") ∧
    (weibull_adstock_decay 5 1 (1/2) 4 "xyz" true = none ∧
    weibull_adstock_decay 5 1 (1/2) 4 "CDF" true =
      weibull_adstock_decay 5 1 (1/2) 4 "cdf" true ∧
    weibull_adstock_decay 5 1 (1/2) 4 "PDF" true =
      weibull_adstock_decay 5 1 (1/2) 4 "pdf" true) :=
  ⟨⟨by norm_num, by norm_num, by decide, by decide⟩,
    weibull_invalid_mode 5 1 (1/2) 4 true "xyz" (by norm_num) (by norm_num)
      (by decide) (by decide)⟩

theorem weibullCDF_bounds (c lam x : ℝ) (hlam : 0 < lam) (hx : 0 < x) :
    0 ≤ weibullCDF c lam x ∧ weibullCDF c lam x ≤ 1 := by
  rw [weibullCDF, if_neg (not_le.mpr hx)]
  have hb : 0 ≤ x / lam := le_of_lt (div_pos hx hlam)
  have h1 : 0 ≤ (x / lam) ^ c := Real.rpow_nonneg hb c
  constructor
  · have h2 : Real.exp (-(x / lam) ^ c) ≤ Real.exp 0 := Real.exp_le_exp.mpr (by linarith)
    rw [Real.exp_zero] at h2
    linarith
  · have h3 : 0 < Real.exp (-(x / lam) ^ c) := Real.exp_pos _
    linarith

theorem weibullPDF_pos (c lam x : ℝ) (hc : 0 < c) (hlam : 0 < lam) (hx : 0 < x) :
    0 < weibullPDF c lam x := by
  rw [weibullPDF, if_neg (not_le.mpr hx)]
  have h1 : 0 < x / lam := div_pos hx hlam
  exact mul_pos (mul_pos (div_pos hc hlam) (Real.rpow_pos_of_pos h1 _)) (Real.exp_pos _)

theorem map_getD_adj (f : ℝ → ℝ) (hf : ∀ a b : ℝ, a ≤ b → f a ≤ f b) (l : List ℝ)
    (hl : ∀ i, i + 1 < l.length → l.getD (i + 1) 0 ≤ l.getD i 0) :
    ∀ i, i + 1 < (l.map f).length → (l.map f).getD (i + 1) 0 ≤ (l.map f).getD i 0 := by
  intro i hi
  rw [List.length_map] at hi
  rw [getD_map_of_lt f l (i + 1) hi 0, getD_map_of_lt f l i (by omega) 0]
  exact hf _ _ (hl i hi)

theorem cumprod_adj (l : List ℝ) (hl : ∀ a ∈ l, 0 ≤ a ∧ a ≤ 1) :
    ∀ i, (cumprod l).getD (i + 1) 0 ≤ (cumprod l).getD i 0 :=
  (cumprodAux_facts l hl 1 zero_le_one).2.2

theorem cdf_factors_mem (shape lam : ℝ) (hlam : 0 < lam) (periods : ℕ) :
    ∀ a ∈ ((1 : ℝ) :: (x_bin periods).dropLast.map fun x => 1 - weibullCDF shape lam x),
      0 ≤ a ∧ a ≤ 1 := by
  intro a ha
  rcases List.mem_cons.mp ha with h | h
  · rw [h]; norm_num
  · obtain ⟨x, hx, rfl⟩ := List.mem_map.mp h
    have hx1 : 1 ≤ x := mem_x_bin periods x (List.mem_of_mem_dropLast hx)
    have hb := weibullCDF_bounds shape lam x hlam (by linarith)
    constructor <;> linarith [hb.1, hb.2]

theorem transformed_scale_cast_pos (periods : ℕ) (scale : ℝ)
    (hp : 1 ≤ periods) (h0 : 0 ≤ scale) (h1 : scale ≤ 1) :
    0 < ((transformed_scale periods scale : ℤ) : ℝ) := by
  have h := one_le_transformed_scale periods scale hp h0 h1
  have h2 : (1 : ℝ) ≤ ((transformed_scale periods scale : ℤ) : ℝ) := by exact_mod_cast h
  linarith

/-- Claim C2 (amended with `impact ≥ 0`): in CDF mode with positive shape,
scale in `(0,1]` and `periods ≥ 1`, for either normalisation flag the output
series is non-increasing across the period index. -/
theorem weibull_cdf_nonincreasing (impact shape scale : ℝ) (periods : ℕ)
    (normalised : Bool) (him : 0 ≤ impact) (hs : 0 < shape)
    (hsc0 : 0 < scale) (hsc1 : scale ≤ 1) (hp : 1 ≤ periods) :
    ∃ out, weibull_adstock_decay impact shape scale periods "cdf" normalised = some out ∧
      ∀ i, i + 1 < out.length → out.getD (i + 1) 0 ≤ out.getD i 0 := by
  have hlam := transformed_scale_cast_pos periods scale hp (le_of_lt hsc0) hsc1
  have hw : weibull_weights shape scale periods "cdf" =
      some (cumprod ((1 : ℝ) :: (x_bin periods).dropLast.map fun x =>
        1 - weibullCDF shape ((transformed_scale periods scale : ℤ) : ℝ) x)) :=
    weibull_weights_cdf shape scale periods (ne_of_gt hs) (ne_of_gt hsc0)
  have hadj : ∀ i, (cumprod ((1 : ℝ) :: (x_bin periods).dropLast.map fun x =>
      1 - weibullCDF shape ((transformed_scale periods scale : ℤ) : ℝ) x)).getD (i + 1) 0 ≤
      (cumprod ((1 : ℝ) :: (x_bin periods).dropLast.map fun x =>
      1 - weibullCDF shape ((transformed_scale periods scale : ℤ) : ℝ) x)).getD i 0 :=
    cumprod_adj _ (cdf_factors_mem shape _ hlam periods)
  have hmul : ∀ a b : ℝ, a ≤ b → a * impact ≤ b * impact :=
    fun a b hab => mul_le_mul_of_nonneg_right hab him
  cases normalised with
  | false =>
    refine ⟨_, (weibull_adstock_of_weights impact shape scale periods "cdf" _ hw).2, ?_⟩
    exact map_getD_adj _ hmul _ (fun i _ => hadj i)
  | true =>
    refine ⟨_, (weibull_adstock_of_weights impact shape scale periods "cdf" _ hw).1, ?_⟩
    set w := cumprod ((1 : ℝ) :: (x_bin periods).dropLast.map fun x =>
      1 - weibullCDF shape ((transformed_scale periods scale : ℤ) : ℝ) x) with hwdef
    have hmono : ∀ a b : ℝ, a ≤ b →
        (a - listMin w) / (if listMax w - listMin w = 0 then 1 else listMax w - listMin w) ≤
        (b - listMin w) / (if listMax w - listMin w = 0 then 1 else listMax w - listMin w) :=
      fun a b hab => (div_le_div_iff_of_pos_right (minmax_denom_pos w)).mpr (by linarith)
    have hadjm : ∀ i, i + 1 < (minmax_scale w).length →
        (minmax_scale w).getD (i + 1) 0 ≤ (minmax_scale w).getD i 0 := by
      rw [minmax_scale]
      exact map_getD_adj _ hmono w (fun i _ => hadj i)
    exact map_getD_adj _ hmul _ hadjm

/-- Claim C2 witness (of the amended statement) at a concrete input. -/
theorem weibull_cdf_nonincreasing_witness :
    ((0 : ℝ) ≤ 2 ∧ (0 : ℝ) < 1 ∧ (0 : ℝ) < 1 ∧ (1 : ℝ) ≤ 1 ∧ (1 : ℕ) ≤ 2) ∧
    ∃ out, weibull_adstock_decay 2 1 1 2 "cdf" false = some out ∧
      ∀ i, i + 1 < out.length → out.getD (i + 1) 0 ≤ out.getD i 0 :=
  ⟨by norm_num,
    weibull_cdf_nonincreasing 2 1 1 2 false (by norm_num) (by norm_num) (by norm_num)
      (by norm_num) (by norm_num)⟩

theorem x_bin_two : x_bin 2 = [1, 2] := by
  rw [x_bin, show (2 : ℕ) = 1 + 1 from rfl, List.range_succ, List.range_succ,
    List.range_zero]
  norm_num

theorem ts_two_one : transformed_scale 2 1 = 2 := by
  rw [transformed_scale_eq 2 1 (by norm_num) (by norm_num) (by norm_num)]
  have h : (1 : ℝ) + 1 * (((2 : ℕ) : ℝ) - 1) = (((2 : ℤ) : ℤ) : ℝ) := by push_cast; ring
  rw [h, roundPy_intCast]

theorem exp_neg_half_lt_one : Real.exp (-(1/2)) < 1 := by
  rw [show (1 : ℝ) = Real.exp 0 from (Real.exp_zero).symm]
  exact Real.exp_lt_exp.mpr (by norm_num)

theorem weibullCDF_one_two_one : weibullCDF 1 2 1 = 1 - Real.exp (-(1/2)) := by
  rw [weibullCDF, if_neg (by norm_num : ¬ (1 : ℝ) ≤ 0), Real.rpow_one]

theorem weights_two_one_cdf :
    weibull_weights 1 1 2 "cdf" = some [1, Real.exp (-(1/2))] := by
  rw [weibull_weights_cdf 1 1 2 one_ne_zero one_ne_zero, ts_two_one, x_bin_two]
  have hc : ((((2 : ℤ) : ℤ) : ℝ)) = (2 : ℝ) := by norm_num
  rw [show ([(1 : ℝ), 2].dropLast = [(1 : ℝ)]) from rfl, hc]
  rw [List.map_cons, List.map_nil, weibullCDF_one_two_one]
  rw [cumprod]
  norm_num [cumprodAux]

/-- Claim C2 counterexample: with a negative impact (allowed by the claim's
"for every impact") the CDF-mode output is strictly increasing at the first
adjacent pair, refuting non-increase as stated. -/
theorem weibull_cdf_nonincreasing_counterexample :
    weibull_adstock_decay (-1) 1 1 2 "cdf" false =
      some [-1, -Real.exp (-(1/2))] ∧
    ¬ (([(-1 : ℝ), -Real.exp (-(1/2))]).getD 1 0 ≤
        ([(-1 : ℝ), -Real.exp (-(1/2))]).getD 0 0) := by
  constructor
  · rw [(weibull_adstock_of_weights (-1) 1 1 2 "cdf" _ weights_two_one_cdf).2]
    norm_num
  · intro hle
    have h2 : ([(-1 : ℝ), -Real.exp (-(1/2))]).getD 1 0 = -Real.exp (-(1/2)) := rfl
    have h3 : ([(-1 : ℝ), -Real.exp (-(1/2))]).getD 0 0 = -1 := rfl
    rw [h2, h3] at hle
    linarith [exp_neg_half_lt_one]

theorem sum_map_div (l : List ℝ) (S : ℝ) :
    (l.map fun v => v / S).sum = l.sum / S := by
  induction l with
  | nil => simp
  | cons a t ih => simp [ih, add_div]

theorem sum_map_mul (l : List ℝ) (c : ℝ) :
    (l.map fun x => x * c).sum = l.sum * c := by
  induction l with
  | nil => simp
  | cons a t ih => simp [ih, add_mul]

theorem pdf_list_sum_pos (shape scale : ℝ) (periods : ℕ)
    (hs : 0 < shape) (hsc0 : 0 < scale) (hsc1 : scale ≤ 1) (hp : 1 ≤ periods) :
    0 < ((x_bin periods).map
      (weibullPDF shape ((transformed_scale periods scale : ℤ) : ℝ))).sum := by
  have hlam := transformed_scale_cast_pos periods scale hp (le_of_lt hsc0) hsc1
  apply List.sum_pos
  · intro a ha
    obtain ⟨x, hx, rfl⟩ := List.mem_map.mp ha
    have hx1 : 1 ≤ x := mem_x_bin periods x hx
    exact weibullPDF_pos shape _ x hs hlam (by linarith)
  · intro hnil
    have hlen := congrArg List.length hnil
    rw [List.length_map, x_bin_length, List.length_nil] at hlen
    omega

/-- Claim C3: in PDF mode the weight vector after division by its sum adds
up to exactly `1`, and the unnormalised PDF-mode output therefore sums to
exactly `impact`. -/
theorem weibull_pdf_sums_to_one (impact shape scale : ℝ) (periods : ℕ)
    (hs : 0 < shape) (hsc0 : 0 < scale) (hsc1 : scale ≤ 1) (hp : 1 ≤ periods) :
    ((((x_bin periods).map
        (weibullPDF shape ((transformed_scale periods scale : ℤ) : ℝ))).map
      fun v => v / ((x_bin periods).map
        (weibullPDF shape ((transformed_scale periods scale : ℤ) : ℝ))).sum).sum = 1) ∧
    ∃ l, weibull_adstock_decay impact shape scale periods "pdf" false = some l ∧
      l.sum = impact := by
  have hS := pdf_list_sum_pos shape scale periods hs hsc0 hsc1 hp
  have h1 : ((((x_bin periods).map
      (weibullPDF shape ((transformed_scale periods scale : ℤ) : ℝ))).map
      fun v => v / ((x_bin periods).map
        (weibullPDF shape ((transformed_scale periods scale : ℤ) : ℝ))).sum).sum = 1) := by
    rw [sum_map_div]
    exact div_self (ne_of_gt hS)
  refine ⟨h1, ?_⟩
  have hw := weibull_weights_pdf shape scale periods (ne_of_gt hs) (ne_of_gt hsc0)
  refine ⟨_, (weibull_adstock_of_weights impact shape scale periods "pdf" _ hw).2, ?_⟩
  rw [sum_map_mul, h1, one_mul]

/-- Claim C3 witness at a concrete input. -/
theorem weibull_pdf_sums_to_one_witness :
    ((0 : ℝ) < 1 ∧ (0 : ℝ) < 1 ∧ (1 : ℝ) ≤ 1 ∧ (1 : ℕ) ≤ 2) ∧
    (((((x_bin 2).map (weibullPDF 1 ((transformed_scale 2 1 : ℤ) : ℝ))).map
      fun v => v / ((x_bin 2).map
        (weibullPDF 1 ((transformed_scale 2 1 : ℤ) : ℝ))).sum).sum = 1) ∧
    ∃ l, weibull_adstock_decay 5 1 1 2 "pdf" false = some l ∧ l.sum = 5) :=
  ⟨by norm_num,
    weibull_pdf_sums_to_one 5 1 1 2 (by norm_num) (by norm_num) (by norm_num)
      (by norm_num)⟩

theorem foldl_min_map (f : ℝ → ℝ) (hf : Monotone f) :
    ∀ (t : List ℝ) (a : ℝ), (t.map f).foldl min (f a) = f (t.foldl min a) := by
  intro t
  induction t with
  | nil => intro a; rfl
  | cons b t ih =>
    intro a
    rw [List.map_cons, List.foldl_cons, List.foldl_cons, ← hf.map_min, ih (min a b)]

theorem foldl_max_map (f : ℝ → ℝ) (hf : Monotone f) :
    ∀ (t : List ℝ) (a : ℝ), (t.map f).foldl max (f a) = f (t.foldl max a) := by
  intro t
  induction t with
  | nil => intro a; rfl
  | cons b t ih =>
    intro a
    rw [List.map_cons, List.foldl_cons, List.foldl_cons, ← hf.map_max, ih (max a b)]

theorem listMin_map_mono (f : ℝ → ℝ) (hf : Monotone f) (l : List ℝ) (hne : l ≠ []) :
    listMin (l.map f) = f (listMin l) := by
  cases l with
  | nil => exact absurd rfl hne
  | cons a t => rw [List.map_cons, listMin, listMin, foldl_min_map f hf t a]

theorem listMax_map_mono (f : ℝ → ℝ) (hf : Monotone f) (l : List ℝ) (hne : l ≠ []) :
    listMax (l.map f) = f (listMax l) := by
  cases l with
  | nil => exact absurd rfl hne
  | cons a t => rw [List.map_cons, listMax, listMax, foldl_max_map f hf t a]

theorem listMin_pair (a b : ℝ) : listMin [a, b] = min a b := by
  rw [listMin, List.foldl_cons, List.foldl_nil]

theorem listMax_pair (a b : ℝ) : listMax [a, b] = max a b := by
  rw [listMax, List.foldl_cons, List.foldl_nil]

/-- Claim C5 (amended with `impact ≥ 0`): with `normalised = true` and a
non-constant weight vector, the returned series has minimum exactly `0` and
maximum exactly `impact`; and with `normalised = false` the maximum need
not equal the impact (witnessed by a concrete PDF-mode call). -/
theorem weibull_normalised_min_max (impact shape scale : ℝ) (periods : ℕ)
    (t : String) (w : List ℝ)
    (hw : weibull_weights shape scale periods t = some w)
    (hne : listMin w ≠ listMax w) (him : 0 ≤ impact) :
    (∃ out, weibull_adstock_decay impact shape scale periods t true = some out ∧
      listMin out = 0 ∧ listMax out = impact) ∧
    (∃ l, weibull_adstock_decay 1 1 1 2 "pdf" false = some l ∧ listMax l ≠ 1) := by
  constructor
  · have hwne : w ≠ [] := by
      intro h
      apply hne
      rw [h]
      rfl
    have hDpos := minmax_denom_pos w
    have hDeq : (if listMax w - listMin w = 0 then 1 else listMax w - listMin w) =
        listMax w - listMin w := if_neg (sub_ne_zero.mpr (Ne.symm hne))
    have hmono : Monotone (fun x : ℝ => (x - listMin w) /
        (if listMax w - listMin w = 0 then 1 else listMax w - listMin w) * impact) := by
      intro a b hab
      exact mul_le_mul_of_nonneg_right
        ((div_le_div_iff_of_pos_right hDpos).mpr (by linarith)) him
    have hout : (minmax_scale w).map (fun x => x * impact) =
        w.map (fun x => (x - listMin w) /
          (if listMax w - listMin w = 0 then 1 else listMax w - listMin w) * impact) := by
      rw [minmax_scale, List.map_map]
      rfl
    refine ⟨_, (weibull_adstock_of_weights impact shape scale periods t w hw).1, ?_, ?_⟩
    · rw [hout, listMin_map_mono _ hmono w hwne]
      simp
    · rw [hout, listMax_map_mono _ hmono w hwne]
      rw [hDeq, div_self (sub_ne_zero.mpr (Ne.symm hne)), one_mul]
  · have hlam2 : (0 : ℝ) < (((2 : ℤ) : ℤ) : ℝ) := by norm_num
    have hApos : 0 < weibullPDF 1 (((2 : ℤ) : ℤ) : ℝ) 1 :=
      weibullPDF_pos 1 _ 1 one_pos hlam2 one_pos
    have hBpos : 0 < weibullPDF 1 (((2 : ℤ) : ℤ) : ℝ) 2 :=
      weibullPDF_pos 1 _ 2 one_pos hlam2 (by norm_num)
    have hw2 : weibull_weights 1 1 2 "pdf" =
        some (([(1 : ℝ), 2].map (weibullPDF 1 (((2 : ℤ) : ℤ) : ℝ))).map
          fun v => v / ([(1 : ℝ), 2].map (weibullPDF 1 (((2 : ℤ) : ℤ) : ℝ))).sum) := by
      rw [weibull_weights_pdf 1 1 2 one_ne_zero one_ne_zero, ts_two_one, x_bin_two]
    refine ⟨_, (weibull_adstock_of_weights 1 1 1 2 "pdf" _ hw2).2, ?_⟩
    simp only [List.map_cons, List.map_nil, List.sum_cons, List.sum_nil, add_zero]
    rw [listMax_pair]
    have hS : 0 < weibullPDF 1 (((2 : ℤ) : ℤ) : ℝ) 1 +
        weibullPDF 1 (((2 : ℤ) : ℤ) : ℝ) 2 := by linarith
    have hu : weibullPDF 1 (((2 : ℤ) : ℤ) : ℝ) 1 /
        (weibullPDF 1 (((2 : ℤ) : ℤ) : ℝ) 1 + weibullPDF 1 (((2 : ℤ) : ℤ) : ℝ) 2) * 1 <
        1 := by
      rw [mul_one, div_lt_one hS]
      linarith
    have hv : weibullPDF 1 (((2 : ℤ) : ℤ) : ℝ) 2 /
        (weibullPDF 1 (((2 : ℤ) : ℤ) : ℝ) 1 + weibullPDF 1 (((2 : ℤ) : ℤ) : ℝ) 2) * 1 <
        1 := by
      rw [mul_one, div_lt_one hS]
      linarith
    exact ne_of_lt (max_lt hu hv)

theorem listMin_one_exp : listMin [1, Real.exp (-(1/2))] = Real.exp (-(1/2)) := by
  rw [listMin_pair, min_eq_right (le_of_lt exp_neg_half_lt_one)]

theorem listMax_one_exp : listMax [1, Real.exp (-(1/2))] = 1 := by
  rw [listMax_pair, max_eq_left (le_of_lt exp_neg_half_lt_one)]

/-- Claim C5 witness (of the amended statement) at a concrete input. -/
theorem weibull_normalised_min_max_witness :
    (weibull_weights 1 1 2 "cdf" = some [1, Real.exp (-(1/2))] ∧
      listMin [1, Real.exp (-(1/2))] ≠ listMax [1, Real.exp (-(1/2))] ∧
      (0 : ℝ) ≤ 3) ∧
    ((∃ out, weibull_adstock_decay 3 1 1 2 "cdf" true = some out ∧
      listMin out = 0 ∧ listMax out = 3) ∧
    (∃ l, weibull_adstock_decay 1 1 1 2 "pdf" false = some l ∧ listMax l ≠ 1)) :=
  ⟨⟨weights_two_one_cdf,
      by rw [listMin_one_exp, listMax_one_exp]; exact ne_of_lt exp_neg_half_lt_one,
      by norm_num⟩,
    weibull_normalised_min_max 3 1 1 2 "cdf" [1, Real.exp (-(1/2))] weights_two_one_cdf
      (by rw [listMin_one_exp, listMax_one_exp]; exact ne_of_lt exp_neg_half_lt_one)
      (by norm_num)⟩

theorem minmax_one_exp : minmax_scale [1, Real.exp (-(1/2))] = [1, 0] := by
  have hne : (1 : ℝ) - Real.exp (-(1/2)) ≠ 0 := by
    have := exp_neg_half_lt_one
    intro h
    linarith
  rw [minmax_scale, listMin_one_exp, listMax_one_exp, if_neg hne,
    List.map_cons, List.map_cons, List.map_nil]
  rw [div_self hne, sub_self, zero_div]

/-- Claim C5 counterexample: with the negative impact `-1` (allowed by the
claim's quantification over every call) and a non-constant weight vector,
the normalised output is `[-1, 0]`, whose minimum is `-1`, not `0`. -/
theorem weibull_normalised_min_max_counterexample :
    weibull_weights 1 1 2 "cdf" = some [1, Real.exp (-(1/2))] ∧
    listMin [1, Real.exp (-(1/2))] ≠ listMax [1, Real.exp (-(1/2))] ∧
    weibull_adstock_decay (-1) 1 1 2 "cdf" true = some [-1, 0] ∧
    listMin [(-1 : ℝ), 0] ≠ 0 := by
  refine ⟨weights_two_one_cdf,
    by rw [listMin_one_exp, listMax_one_exp]; exact ne_of_lt exp_neg_half_lt_one,
    ?_, ?_⟩
  · rw [(weibull_adstock_of_weights (-1) 1 1 2 "cdf" _ weights_two_one_cdf).1,
      minmax_one_exp]
    norm_num
  · rw [listMin_pair]
    norm_num

/-- Claim C9: when the weight vector is constant (for example the all-zero
vector of the degenerate `shape = 0` or `scale = 0` branch), normalisation
does not fail: sklearn's min-max scaler replaces the zero data range by a
unit scale, so the function returns the all-zero series of length
`periods`. -/
theorem weibull_constant_weights_zero (impact shape scale : ℝ) (periods : ℕ)
    (t : String) (w : List ℝ) (hp : 1 ≤ periods)
    (hw : weibull_weights shape scale periods t = some w)
    (hconst : ∀ x ∈ w, x = listMin w) :
    weibull_adstock_decay impact shape scale periods t true =
      some (List.replicate periods 0) := by
  rw [(weibull_adstock_of_weights impact shape scale periods t w hw).1]
  have hlen : w.length = periods := weights_length shape scale periods t w hp hw
  have hzero : ∀ b ∈ (minmax_scale w).map (fun x => x * impact), b = 0 := by
    intro b hb
    obtain ⟨y, hy, rfl⟩ := List.mem_map.mp hb
    rw [minmax_scale] at hy
    obtain ⟨x, hx, rfl⟩ := List.mem_map.mp hy
    rw [hconst x hx, sub_self, zero_div, zero_mul]
  have hlen2 : ((minmax_scale w).map (fun x => x * impact)).length = periods := by
    rw [List.length_map, minmax_scale, List.length_map, hlen]
  have hrep := List.eq_replicate_of_mem hzero
  rw [hlen2] at hrep
  rw [hrep]

/-- Claim C9 witness at a concrete input. -/
theorem weibull_constant_weights_zero_witness :
    ((1 : ℕ) ≤ 2 ∧ weibull_weights 0 (1/2) 2 "cdf" = some (List.replicate 2 0) ∧
      (∀ x ∈ List.replicate 2 (0 : ℝ), x = listMin (List.replicate 2 0))) ∧
    weibull_adstock_decay 5 0 (1/2) 2 "cdf" true = some (List.replicate 2 0) :=
  ⟨⟨by norm_num, weibull_weights_deg 0 (1/2) 2 "cdf" (Or.inl rfl),
      fun x hx => by
        rw [List.eq_of_mem_replicate hx, listMin_replicate_zero]⟩,
    weibull_constant_weights_zero 5 0 (1/2) 2 "cdf" (List.replicate 2 0) (by norm_num)
      (weibull_weights_deg 0 (1/2) 2 "cdf" (Or.inl rfl))
      (fun x hx => by rw [List.eq_of_mem_replicate hx, listMin_replicate_zero])⟩

end Adstock
